import Mathlib

/-!
Verification development for `trade_reconciliation.py`.

This file shallowly embeds the two core components of the repository —
the position matcher `get_hl_closed_trades` and the ledger writer
`backfill_trades` — and proves properties of the embedding.

Modelling conventions:
* Python floats are modelled as exact rationals (`ℚ`); Python's `x / y`
  raises `ZeroDivisionError` when `y == 0`, which is modelled with
  `Except Unit`: the percentage-P&L division returns `.error ()` when its
  denominator is zero, and the run function propagates the error, mirroring
  the `try/except` that wraps the whole matcher body and returns `[]`.
* The `positions` dict is modelled as a total map `String → Pos` whose
  default value is the fresh position inserted by
  `positions[coin] = {'entries': [], 'side': None, 'total_amount': 0, 'avg_entry': 0}`.
* `sorted(recent_fills, key=time)` is a stable ascending sort; it is
  modelled with `List.insertionSort` on the timestamp, which is also stable,
  hence produces the same list.
* The database table `trades` is modelled as a `List LedgerRow`; the
  `SELECT COUNT(*)` dedup query becomes `dedupExists` and `INSERT` becomes
  appending a row.  A per-row insertion failure (exception from
  `conn.execute`) is modelled by a failure predicate on the candidate row.
-/

/-- One raw fill, with the fields the matcher reads
(`coin`, `side`, `sz`, `px`, `time`, `fee`). -/
structure Fill where
  coin : String
  side : String
  sz : ℚ
  px : ℚ
  time : ℚ
  fee : ℚ
deriving DecidableEq

/-- One element of `pos['entries']`:
`{'timestamp': ..., 'price': ..., 'amount': ..., 'side': ...}`. -/
structure Entry where
  timestamp : ℚ
  price : ℚ
  amount : ℚ
  side : String
deriving DecidableEq

/-- The per-coin position dict
`{'entries': [...], 'side': None|'long'|'short', 'total_amount': ..., 'avg_entry': ...}`. -/
structure Pos where
  entries : List Entry
  side : Option String
  total_amount : ℚ
  avg_entry : ℚ
deriving DecidableEq

/-- One element of the `round_trips` result list. -/
structure RoundTrip where
  symbol : String
  side : Option String
  entry_price : ℚ
  exit_price : ℚ
  quantity : ℚ
  pnl_usd : ℚ
  pnl_pct : ℚ
  entry_time : ℚ
  exit_time : ℚ
  fee : ℚ
deriving DecidableEq

/-- The `positions` dict, as a total map with fresh default. -/
abbrev PosMap := String → Pos

/-- `{'entries': [], 'side': None, 'total_amount': 0, 'avg_entry': 0}`. -/
def freshPos : Pos := ⟨[], none, 0, 0⟩

/-- The empty `positions = {}` dict (every coin maps to a fresh position). -/
def initPS : PosMap := fun _ => freshPos

/-- `positions[coin] = p`. -/
def updatePS (ps : PosMap) (c : String) (p : Pos) : PosMap :=
  fun x => if x = c then p else ps x

/-- Python's `str.lower()` (character-wise lowercasing; the side vocabulary
is ASCII, where `Char.toLower` agrees with Python). -/
def lowerStr (s : String) : String := ⟨s.data.map Char.toLower⟩

/-- Side normalisation, lines 68-72:
lowercase, then `b/buy/long → buy`, `a/sell/short → sell`,
anything else left as the lowercased token. -/
def normSide (s : String) : String :=
  let t := lowerStr s
  if t = "b" ∨ t = "buy" ∨ t = "long" then "buy"
  else if t = "a" ∨ t = "sell" ∨ t = "short" then "sell"
  else t

/-- The opening branch, lines 93-99. -/
def openStep (pos : Pos) (side : String) (price amount timestamp : ℚ) : Pos :=
  let side' := if pos.total_amount = 0
    then some (if side = "buy" then "long" else "short")
    else pos.side
  let total_cost := pos.avg_entry * pos.total_amount + price * amount
  let total' := pos.total_amount + amount
  let avg' := if 0 < total' then total_cost / total' else 0
  ⟨pos.entries ++ [⟨timestamp, price, amount, side⟩], side', total', avg'⟩

/-- Line 111: percentage P&L; Python raises `ZeroDivisionError` when the
denominator is zero, modelled as `.error ()`. -/
def closePnlPct (pos : Pos) (exit_price : ℚ) : Except Unit ℚ :=
  if pos.side = some "long" then
    if pos.avg_entry = 0 then .error ()
    else .ok ((exit_price / pos.avg_entry - 1) * 100)
  else
    if exit_price = 0 then .error ()
    else .ok ((pos.avg_entry / exit_price - 1) * 100)

/-- The closing branch, lines 101-126: matched quantity, P&L, the emitted
round trip, the decrement, and the reset-to-flat when `total_amount <= 0`. -/
def closeStep (coin : String) (pos : Pos) (price amount timestamp fee : ℚ) :
    Except Unit (Pos × RoundTrip) :=
  let close_amount := min amount pos.total_amount
  let entry_price := pos.avg_entry
  let pnl := if pos.side = some "long"
    then (price - entry_price) * close_amount
    else (entry_price - price) * close_amount
  match closePnlPct pos price with
  | .error e => .error e
  | .ok pct =>
    let rt : RoundTrip :=
      ⟨coin, pos.side, entry_price, price, close_amount, pnl, pct,
        (match pos.entries with | [] => timestamp | e :: _ => e.timestamp),
        timestamp, fee⟩
    let total' := pos.total_amount - close_amount
    let pos' := if total' ≤ 0 then freshPos else { pos with total_amount := total' }
    .ok (pos', rt)

/-- One iteration of the fill loop, lines 66-126: field extraction, the
degenerate-input filter (line 79), the `is_opening` test (lines 87-91), and
dispatch to the opening or closing branch.  Returns the updated positions
map and the optionally emitted round trip. -/
def stepFill (ps : PosMap) (f : Fill) : Except Unit (PosMap × Option RoundTrip) :=
  let coin := f.coin
  let side := normSide f.side
  let amount := f.sz
  if coin = "" ∨ amount = 0 then .ok (ps, none)
  else
    let pos := ps coin
    if pos.total_amount = 0 ∨ (pos.side = some "long" ∧ side = "buy")
        ∨ (pos.side = some "short" ∧ side = "sell") then
      .ok (updatePS ps coin (openStep pos side f.px amount f.time), none)
    else
      match closeStep coin pos f.px amount f.time |f.fee| with
      | .error e => .error e
      | .ok (pos', rt) => .ok (updatePS ps coin pos', some rt)

/-- The whole fill loop: threads the positions map through the fills,
collecting emitted round trips in processing order; the first
`ZeroDivisionError` aborts the loop (it propagates to the `except` clause). -/
def runFills : PosMap → List Fill → Except Unit (PosMap × List RoundTrip)
  | ps, [] => .ok (ps, [])
  | ps, f :: rest =>
    match stepFill ps f with
    | .error e => .error e
    | .ok (ps1, ot) =>
      match runFills ps1 rest with
      | .error e => .error e
      | .ok (ps2, ts) => .ok (ps2, ot.toList ++ ts)

/-- Line 66: `sorted(recent_fills, key=lambda f: f.get('time', 0))` —
a stable ascending sort by timestamp. -/
def sortFills (fills : List Fill) : List Fill :=
  List.insertionSort (fun a b => a.time ≤ b.time) fills

/-- Lines 59 and 66: the lookback filter followed by the sort. -/
def prepFills (since_ts : ℚ) (all_fills : List Fill) : List Fill :=
  sortFills (all_fills.filter fun f => since_ts ≤ f.time)

/-- `get_hl_closed_trades`, lines 49-134: the matcher returns the list of
round trips, or `[]` when any exception (in particular `ZeroDivisionError`)
escapes the loop — the `except` clause at lines 130-134 returns `[]`. -/
def get_hl_closed_trades (since_ts : ℚ) (all_fills : List Fill) : List RoundTrip :=
  match runFills initPS (prepFills since_ts all_fills) with
  | .ok (_, ts) => ts
  | .error _ => []

/-- Whether the run raised (reached the `except` clause). -/
def runFailed (fills : List Fill) : Bool :=
  match runFills initPS fills with
  | .error _ => true
  | .ok _ => false

/-- The final position for one coin after a successful run. -/
def finalPos (fills : List Fill) (c : String) : Option Pos :=
  match runFills initPS fills with
  | .ok (ps, _) => some (ps c)
  | .error _ => none

/-- The emitted round trips after a successful run (no sort, no filter). -/
def finalTrades (fills : List Fill) : Option (List RoundTrip) :=
  match runFills initPS fills with
  | .ok (_, ts) => some ts
  | .error _ => none



/-- One row of the `trades` table, with the columns the INSERT at
lines 166-176 writes. -/
structure LedgerRow where
  user_id : Int
  symbol : String
  hl_coin : String
  side : Option String
  entry_price : ℚ
  exit_price : ℚ
  quantity : ℚ
  leverage : ℚ
  profit_usd : ℚ
  profit_percent : ℚ
  fee_usd : ℚ
  opened_at : ℚ
  closed_at : ℚ
  source : String
deriving DecidableEq

/-- Lines 153-154: `datetime.utcfromtimestamp(t / 1000) if t > 1e10 else
datetime.utcfromtimestamp(t)` — the resulting instant, in epoch seconds. -/
def toDbTime (t : ℚ) : ℚ := if 10 ^ 10 < t then t / 1000 else t

/-- The candidate row built by one loop iteration of `backfill_trades`
(lines 150-176): the fee rule at lines 150-151 and the column values of the
INSERT at lines 166-176. -/
def mkRow (user : Int) (feeRate : ℚ) (rt : RoundTrip) : LedgerRow :=
  let position_size := rt.quantity * rt.exit_price
  let fee_amount := if 0 < rt.pnl_usd then position_size * feeRate else 0
  { user_id := user, symbol := rt.symbol, hl_coin := rt.symbol, side := rt.side,
    entry_price := rt.entry_price, exit_price := rt.exit_price,
    quantity := rt.quantity, leverage := 1,
    profit_usd := rt.pnl_usd, profit_percent := rt.pnl_pct, fee_usd := fee_amount,
    opened_at := toDbTime rt.entry_time, closed_at := toDbTime rt.exit_time,
    source := "reconciliation" }

/-- The dedup query at lines 156-161: does some persisted row for the same
user and symbol have `opened_at` and `closed_at` each within 60 seconds of
the candidate's times? -/
def dedupExists (store : List LedgerRow) (user : Int) (symbol : String)
    (et xt : ℚ) : Bool :=
  store.any fun r =>
    decide (r.user_id = user ∧ r.symbol = symbol ∧
      |r.opened_at - et| < 60 ∧ |r.closed_at - xt| < 60)

/-- `backfill_trades`, lines 137-184: fold over the round trips; skip on a
dedup hit; on an insertion failure (`fp row = true`, the `except` at
lines 181-182) log and continue; otherwise append the row and accumulate
`inserted`, `total_pnl`, `total_fees`.  Returns the final table together
with the three aggregates. -/
def backfill_trades (fp : LedgerRow → Bool) (user : Int) (feeRate : ℚ) :
    List LedgerRow → List RoundTrip → List LedgerRow × Nat × ℚ × ℚ
  | store, [] => (store, 0, 0, 0)
  | store, rt :: rest =>
    let et := toDbTime rt.entry_time
    let xt := toDbTime rt.exit_time
    if dedupExists store user rt.symbol et xt then
      backfill_trades fp user feeRate store rest
    else
      let row := mkRow user feeRate rt
      if fp row then
        backfill_trades fp user feeRate store rest
      else
        let res := backfill_trades fp user feeRate (store ++ [row]) rest
        (res.1, res.2.1 + 1, res.2.2.1 + rt.pnl_usd, res.2.2.2 + row.fee_usd)



/-! ### Concrete inputs used in witnesses and counterexamples -/

/-- Long open, quantity 5 at price 100 (capped-close example). -/
def fillOpen5 : Fill := ⟨"A", "buy", 5, 100, 1, 0⟩

/-- Oversized close, quantity 8 at price 110. -/
def fillClose8 : Fill := ⟨"A", "sell", 8, 110, 2, 0⟩

/-- Short open, quantity 3 at price 100. -/
def fillShortOpen : Fill := ⟨"A", "sell", 3, 100, 1, 0⟩

/-- Short close at price 90. -/
def fillShortClose : Fill := ⟨"A", "buy", 3, 90, 2, 0⟩

/-- A small valid round trip: open 1 at 5. -/
def fillOpen1 : Fill := ⟨"A", "buy", 1, 5, 1, 0⟩

/-- A small valid round trip: close 1 at 6. -/
def fillClose1 : Fill := ⟨"A", "sell", 1, 6, 2, 0⟩

/-- Opens a position at price zero (sets `avg_entry = 0`). -/
def fillZeroOpen : Fill := ⟨"A", "buy", 1, 0, 3, 0⟩

/-- Closing against the zero-entry position triggers the division by zero. -/
def fillZeroClose : Fill := ⟨"A", "sell", 1, 10, 4, 0⟩

/-- A fill with an unrecognized side token. -/
def fillUnrec : Fill := ⟨"A", "z", 1, 10, 1, 0⟩

/-- A second unrecognized-side fill, arriving while a long is open. -/
def fillUnrec2 : Fill := ⟨"A", "z", 1, 12, 2, 0⟩

/-- A fill with strictly negative quantity. -/
def fillNeg : Fill := ⟨"A", "buy", -1, 10, 1, 0⟩

/-- The round trip produced by `fillOpen5` then `fillClose8`. -/
def rtSample : RoundTrip := ⟨"A", some "long", 100, 110, 5, 50, 10, 1, 2, 0⟩

/-- The position after `fillOpen5` alone: long 5 at 100. -/
def posOpen5 : Pos := ⟨[⟨1, 100, 5, "buy"⟩], some "long", 5, 100⟩

/-- The positions dict holding `posOpen5` at coin `"A"`. -/
def psOpen5 : PosMap := updatePS initPS "A" posOpen5

/-- The position after `fillShortOpen` alone: short 3 at 100. -/
def posShort3 : Pos := ⟨[⟨1, 100, 3, "sell"⟩], some "short", 3, 100⟩

/-- The positions dict holding `posShort3` at coin `"A"`. -/
def psShort3 : PosMap := updatePS initPS "A" posShort3

/-- The timestamps of a position's entries are in nondecreasing order. -/
def entriesSorted (p : Pos) : Prop :=
  List.Pairwise (· ≤ ·) (p.entries.map (·.timestamp))

/-- Every entry of the position is no later than the bound `b`. -/
def entriesLe (p : Pos) (b : ℚ) : Prop :=
  ∀ e ∈ p.entries, e.timestamp ≤ b

/-- Two accumulating long fills used in the `c8` witness. -/
def fillAvg1 : Fill := ⟨"A", "buy", 2, 100, 1, 0⟩

/-- Second accumulating fill, at a later timestamp. -/
def fillAvg2 : Fill := ⟨"A", "buy", 1, 110, 2, 0⟩

/-- The position accumulated by `fillAvg1` then `fillAvg2`. -/
def posAvg : Pos := ⟨[⟨1, 100, 2, "buy"⟩, ⟨2, 110, 1, "buy"⟩], some "long", 3, 310/3⟩

/-- The round trip emitted when `posAvg` is closed with qty 3 at 120. -/
def rtAvg : RoundTrip := ⟨"A", some "long", 310/3, 120, 3, 50, 500/31, 1, 5, 0⟩

/-! ### Inversion lemmas for the matcher step -/

/-- A step that emits a round trip is exactly a closing step: the fill
passed the degenerate filter, failed the `is_opening` test, and the close
branch succeeded; the positions map is updated at the fill's coin. -/
theorem stepFill_close_inv {ps : PosMap} {f : Fill} {ps' : PosMap} {rt : RoundTrip}
    (h : stepFill ps f = .ok (ps', some rt)) :
    ¬(f.coin = "" ∨ f.sz = 0) ∧
    ¬((ps f.coin).total_amount = 0 ∨
        ((ps f.coin).side = some "long" ∧ normSide f.side = "buy") ∨
        ((ps f.coin).side = some "short" ∧ normSide f.side = "sell")) ∧
    ∃ pos', closeStep f.coin (ps f.coin) f.px f.sz f.time |f.fee| = .ok (pos', rt) ∧
      ps' = updatePS ps f.coin pos' := by
  unfold stepFill at h
  dsimp only at h
  split at h
  · simp at h
  · split at h
    · simp at h
    · rename_i h1 h2
      refine ⟨h1, h2, ?_⟩
      cases hc : closeStep f.coin (ps f.coin) f.px f.sz f.time |f.fee| with
      | error e => rw [hc] at h; simp at h
      | ok p =>
        rw [hc] at h
        obtain ⟨pos', rt'⟩ := p
        simp only [Except.ok.injEq, Prod.mk.injEq, Option.some.injEq] at h
        exact ⟨pos', by rw [h.2], by rw [h.1]⟩

/-- Inversion of the closing branch: the emitted record and the successor
position, in terms of the pre-close position. -/
theorem closeStep_inv {coin : String} {pos : Pos} {price amount timestamp fee : ℚ}
    {pos' : Pos} {rt : RoundTrip}
    (h : closeStep coin pos price amount timestamp fee = .ok (pos', rt)) :
    ∃ pct, closePnlPct pos price = .ok pct ∧
      rt = ⟨coin, pos.side, pos.avg_entry, price, min amount pos.total_amount,
        (if pos.side = some "long"
          then (price - pos.avg_entry) * min amount pos.total_amount
          else (pos.avg_entry - price) * min amount pos.total_amount), pct,
        (match pos.entries with | [] => timestamp | e :: _ => e.timestamp),
        timestamp, fee⟩ ∧
      pos' = (if pos.total_amount - min amount pos.total_amount ≤ 0 then freshPos
        else { pos with total_amount := pos.total_amount - min amount pos.total_amount }) := by
  unfold closeStep at h
  cases hp : closePnlPct pos price with
  | error e => rw [hp] at h; simp at h
  | ok pct =>
    rw [hp] at h
    simp only [Except.ok.injEq, Prod.mk.injEq] at h
    exact ⟨pct, rfl, h.2.symm, h.1.symm⟩

/-! ### Claims C3, C4, C5, C6 -/

/-- Updating the positions dict and reading back the same coin. -/
theorem updatePS_same (ps : PosMap) (c : String) (p : Pos) : updatePS ps c p c = p := by
  simp [updatePS]

/-- C3: every closing fill processed against an open position emits a round
trip with `matched_quantity = min(closing_fill.quantity, open_quantity)`;
`open_quantity` is decremented by exactly that amount; reaching zero resets
the position to flat; the excess of an oversized close is dropped and never
opens an opposite-direction position.  In particular, opening long qty 5 at
100 then closing qty 8 at 110 yields exactly one round trip with matched
quantity 5 and a flat final position. -/
theorem c3_capped_close :
    (∀ (ps : PosMap) (f : Fill) (ps' : PosMap) (rt : RoundTrip),
      stepFill ps f = .ok (ps', some rt) →
      rt.quantity = min f.sz (ps f.coin).total_amount ∧
      (ps' f.coin).total_amount = (ps f.coin).total_amount - rt.quantity ∧
      ((ps f.coin).total_amount - rt.quantity ≤ 0 → ps' f.coin = freshPos) ∧
      ((ps' f.coin).side = (ps f.coin).side ∨ ps' f.coin = freshPos)) ∧
    finalTrades [fillOpen5, fillClose8] = some [rtSample] ∧
    finalPos [fillOpen5, fillClose8] "A" = some freshPos := by
  refine ⟨?_, by with_unfolding_all decide, by with_unfolding_all decide⟩
  intro ps f ps' rt h
  obtain ⟨h1, h2, pos', hc, hps⟩ := stepFill_close_inv h
  obtain ⟨pct, hp, hrt, hpos⟩ := closeStep_inv hc
  subst hps
  rw [updatePS_same]
  have hq : rt.quantity = min f.sz (ps f.coin).total_amount := by rw [hrt]
  have hmt : min f.sz (ps f.coin).total_amount ≤ (ps f.coin).total_amount :=
    min_le_right _ _
  refine ⟨hq, ?_, ?_, ?_⟩
  · rw [hq, hpos]
    by_cases hd : (ps f.coin).total_amount - min f.sz (ps f.coin).total_amount ≤ 0
    · rw [if_pos hd]
      show (0 : ℚ) = _
      linarith
    · rw [if_neg hd]
  · intro hd
    rw [hq] at hd
    rw [hpos, if_pos hd]
  · rw [hpos]
    by_cases hd : (ps f.coin).total_amount - min f.sz (ps f.coin).total_amount ≤ 0
    · right; rw [if_pos hd]
    · left; rw [if_neg hd]

/-- Witness for the universally quantified part of `c3_capped_close`:
an open long of 5 closed by an oversized fill of 8. -/
theorem c3_capped_close_witness :
    ∃ ps' rt, stepFill psOpen5 fillClose8 = .ok (ps', some rt) ∧
      (rt.quantity = min fillClose8.sz (psOpen5 fillClose8.coin).total_amount ∧
      (ps' fillClose8.coin).total_amount =
        (psOpen5 fillClose8.coin).total_amount - rt.quantity ∧
      ((psOpen5 fillClose8.coin).total_amount - rt.quantity ≤ 0 →
        ps' fillClose8.coin = freshPos) ∧
      ((ps' fillClose8.coin).side = (psOpen5 fillClose8.coin).side ∨
        ps' fillClose8.coin = freshPos)) := by
  have h : stepFill psOpen5 fillClose8 = .ok (updatePS psOpen5 "A" freshPos,
      some ⟨"A", some "long", 100, 110, 5, 50, 10, 1, 2, 0⟩) := by
    with_unfolding_all rfl
  exact ⟨_, _, h, c3_capped_close.1 psOpen5 fillClose8 _ _ h⟩

/-- C4: an opening contribution updates `average_entry_price` to the running
volume-weighted average, increments `open_quantity` by the fill quantity,
appends the fill to `entries`, and sets the direction from the fill's side
when the position was flat (leaving it unchanged otherwise). -/
theorem c4_opening_update :
    ∀ (ps : PosMap) (f : Fill),
      f.coin ≠ "" → 0 < f.sz → 0 ≤ (ps f.coin).total_amount →
      ((ps f.coin).total_amount = 0 ∨
        ((ps f.coin).side = some "long" ∧ normSide f.side = "buy") ∨
        ((ps f.coin).side = some "short" ∧ normSide f.side = "sell")) →
      stepFill ps f = .ok
        (updatePS ps f.coin (openStep (ps f.coin) (normSide f.side) f.px f.sz f.time),
          none) ∧
      (openStep (ps f.coin) (normSide f.side) f.px f.sz f.time).avg_entry =
        ((ps f.coin).avg_entry * (ps f.coin).total_amount + f.px * f.sz) /
          ((ps f.coin).total_amount + f.sz) ∧
      (openStep (ps f.coin) (normSide f.side) f.px f.sz f.time).total_amount =
        (ps f.coin).total_amount + f.sz ∧
      (openStep (ps f.coin) (normSide f.side) f.px f.sz f.time).entries =
        (ps f.coin).entries ++ [⟨f.time, f.px, f.sz, normSide f.side⟩] ∧
      ((ps f.coin).total_amount = 0 →
        (openStep (ps f.coin) (normSide f.side) f.px f.sz f.time).side =
          some (if normSide f.side = "buy" then "long" else "short")) ∧
      ((ps f.coin).total_amount ≠ 0 →
        (openStep (ps f.coin) (normSide f.side) f.px f.sz f.time).side =
          (ps f.coin).side) := by
  intro ps f hcoin hsz htot hopen
  have hnz : ¬(f.coin = "" ∨ f.sz = 0) := by
    push_neg
    exact ⟨hcoin, ne_of_gt hsz⟩
  have hpos : 0 < (ps f.coin).total_amount + f.sz := by linarith
  refine ⟨?_, ?_, rfl, rfl, ?_, ?_⟩
  · unfold stepFill
    dsimp only
    rw [if_neg hnz, if_pos hopen]
  · unfold openStep
    dsimp only
    rw [if_pos hpos]
  · intro hz; unfold openStep; dsimp only; rw [if_pos hz]
  · intro hz; unfold openStep; dsimp only; rw [if_neg hz]

/-- Witness for `c4_opening_update`: the very first fill of a stream opens a
long of 5 at 100 with average entry 100. -/
theorem c4_opening_update_witness :
    stepFill initPS fillOpen5 = .ok
      (updatePS initPS "A" (openStep freshPos "buy" 100 5 1), none) ∧
    (openStep freshPos "buy" 100 5 1).avg_entry = 100 ∧
    (openStep freshPos "buy" 100 5 1).total_amount = 5 ∧
    (openStep freshPos "buy" 100 5 1).side = some "long" := by
  have h := c4_opening_update initPS fillOpen5 (by with_unfolding_all decide)
    (by with_unfolding_all decide) (by with_unfolding_all decide)
    (Or.inl (by with_unfolding_all decide))
  refine ⟨?_, by with_unfolding_all decide, by with_unfolding_all decide,
    by with_unfolding_all decide⟩
  have h1 := h.1
  have he : normSide fillOpen5.side = "buy" := by with_unfolding_all decide
  rw [he] at h1
  exact h1

/-- C5: the emitted round trip's realized P&L is
`(exit_price - entry_price) * matched_quantity` for a long position and
`(entry_price - exit_price) * matched_quantity` for a short; in particular
a short of 3 opened at 100 and closed at 90 realizes +30. -/
theorem c5_pnl_sign :
    (∀ (ps : PosMap) (f : Fill) (ps' : PosMap) (rt : RoundTrip),
      stepFill ps f = .ok (ps', some rt) →
      ((ps f.coin).side = some "long" →
        rt.pnl_usd = (rt.exit_price - rt.entry_price) * rt.quantity) ∧
      ((ps f.coin).side = some "short" →
        rt.pnl_usd = (rt.entry_price - rt.exit_price) * rt.quantity)) ∧
    finalTrades [fillShortOpen, fillShortClose] =
      some [⟨"A", some "short", 100, 90, 3, 30, 100/9, 1, 2, 0⟩] := by
  refine ⟨?_, by with_unfolding_all decide⟩
  intro ps f ps' rt h
  obtain ⟨h1, h2, pos', hc, hps⟩ := stepFill_close_inv h
  obtain ⟨pct, hp, hrt, hpos⟩ := closeStep_inv hc
  subst hrt
  constructor
  · intro hs; simp [hs]
  · intro hs; simp [hs]

/-- Witness for `c5_pnl_sign`: the short close of `fillShortClose` against
an open short of 3 at 100. -/
theorem c5_pnl_sign_witness :
    ∃ ps' rt, stepFill psShort3 fillShortClose = .ok (ps', some rt) ∧
      rt.pnl_usd = (rt.entry_price - rt.exit_price) * rt.quantity := by
  have h : stepFill psShort3 fillShortClose = .ok (updatePS psShort3 "A" freshPos,
      some ⟨"A", some "short", 100, 90, 3, 30, 100/9, 1, 2, 0⟩) := by
    with_unfolding_all rfl
  exact ⟨_, _, h,
    (c5_pnl_sign.1 psShort3 fillShortClose _ _ h).2 (by with_unfolding_all decide)⟩

/-- C6: the fee charged for a round trip is
`matched_quantity * exit_price * fee_rate` when `realized_pnl > 0` and is
exactly 0 when `realized_pnl <= 0`. -/
theorem c6_fee_rule (user : Int) (rate : ℚ) (rt : RoundTrip) :
    (0 < rt.pnl_usd →
      (mkRow user rate rt).fee_usd = rt.quantity * rt.exit_price * rate) ∧
    (rt.pnl_usd ≤ 0 → (mkRow user rate rt).fee_usd = 0) := by
  constructor
  · intro h
    unfold mkRow
    dsimp only
    rw [if_pos h]
  · intro h
    unfold mkRow
    dsimp only
    rw [if_neg (not_lt.mpr h)]

/-- Witness for `c6_fee_rule`: a profitable trade is charged
`5 * 110 * 1/100` and a losing one is charged 0. -/
theorem c6_fee_rule_witness :
    (0 < rtSample.pnl_usd ∧
      (mkRow 7 (1/100) rtSample).fee_usd = rtSample.quantity * rtSample.exit_price * (1/100)) ∧
    ((⟨"A", some "long", 100, 90, 5, -50, -10, 1, 2, 0⟩ : RoundTrip).pnl_usd ≤ 0 ∧
      (mkRow 7 (1/100) ⟨"A", some "long", 100, 90, 5, -50, -10, 1, 2, 0⟩).fee_usd = 0) :=
  ⟨⟨by with_unfolding_all decide,
    (c6_fee_rule 7 (1/100) rtSample).1 (by with_unfolding_all decide)⟩,
   ⟨by with_unfolding_all decide,
    (c6_fee_rule 7 (1/100) ⟨"A", some "long", 100, 90, 5, -50, -10, 1, 2, 0⟩).2
      (by with_unfolding_all decide)⟩⟩

/-! ### Claims C1, C2, C10 -/

/-- Counterexample to C1 as stated: in the stream
`[fillOpen1, fillClose1, fillZeroOpen, fillZeroClose]` the last fill closes
a position whose `avg_entry` is 0, and the resulting `ZeroDivisionError`
makes the matcher return `[]` — the earlier, perfectly valid round trip
(emitted when only the first two fills are given) is lost, so it is not the
case that every other round trip is still emitted. -/
theorem c1_divzero_counterexample :
    get_hl_closed_trades 0 [fillOpen1, fillClose1, fillZeroOpen, fillZeroClose] = [] ∧
    get_hl_closed_trades 0 [fillOpen1, fillClose1] =
      [⟨"A", some "long", 5, 6, 1, 1, 20, 1, 2, 0⟩] :=
  ⟨by with_unfolding_all decide, by with_unfolding_all decide⟩

/-- C1 (amended): a division-by-zero in the percentage-P&L computation is
caught by the `except` clause wrapping the whole matcher, which abandons the
entire stream and returns the empty list — no round trip of the stream
(before or after the offending fill) is emitted; the process itself does
not abort (the function returns normally). -/
theorem c1_divzero_amended (since_ts : ℚ) (all_fills : List Fill)
    (h : runFailed (prepFills since_ts all_fills) = true) :
    get_hl_closed_trades since_ts all_fills = [] := by
  unfold get_hl_closed_trades
  unfold runFailed at h
  cases hr : runFills initPS (prepFills since_ts all_fills) with
  | error e => rfl
  | ok p => rw [hr] at h; simp at h

/-- Witness for `c1_divzero_amended`: the four-fill stream of
`c1_divzero_counterexample` does raise, and the matcher returns `[]`. -/
theorem c1_divzero_amended_witness :
    runFailed (prepFills 0 [fillOpen1, fillClose1, fillZeroOpen, fillZeroClose]) = true ∧
    get_hl_closed_trades 0 [fillOpen1, fillClose1, fillZeroOpen, fillZeroClose] = [] :=
  ⟨by with_unfolding_all decide,
   c1_divzero_amended 0 [fillOpen1, fillClose1, fillZeroOpen, fillZeroClose]
     (by with_unfolding_all decide)⟩

/-- Counterexample to C2 as stated: an unrecognized side token (`"z"`) does
NOT leave the position untouched.  On a flat book it opens a short position
of quantity 1, and against an open long it emits a round trip and reduces
the open quantity to zero. -/
theorem c2_unrecognized_counterexample :
    finalPos [fillUnrec] "A" = some ⟨[⟨1, 10, 1, "z"⟩], some "short", 1, 10⟩ ∧
    finalTrades [fillOpen1, fillUnrec2] =
      some [⟨"A", some "long", 5, 12, 1, 7, 140, 1, 2, 0⟩] :=
  ⟨by with_unfolding_all decide, by with_unfolding_all decide⟩

/-- C2 (amended): a fill whose normalized side token is neither `"buy"` nor
`"sell"` is treated as an opening contribution that opens a SHORT position
when the book is flat (`is_opening` holds through its first disjunct, and
the side is set by the `else` of `'long' if side == 'buy'`), and as a
closing contribution (emitting a round trip and reducing the open quantity)
when a position is open. -/
theorem c2_unrecognized_amended (ps : PosMap) (f : Fill)
    (h1 : f.coin ≠ "") (h2 : f.sz ≠ 0)
    (h3 : normSide f.side ≠ "buy") (h4 : normSide f.side ≠ "sell") :
    ((ps f.coin).total_amount = 0 →
      stepFill ps f = .ok
        (updatePS ps f.coin (openStep (ps f.coin) (normSide f.side) f.px f.sz f.time),
          none) ∧
      (openStep (ps f.coin) (normSide f.side) f.px f.sz f.time).side = some "short") ∧
    ((ps f.coin).total_amount ≠ 0 →
      stepFill ps f = (closeStep f.coin (ps f.coin) f.px f.sz f.time |f.fee|).map
        (fun x => (updatePS ps f.coin x.1, some x.2))) := by
  have hnz : ¬(f.coin = "" ∨ f.sz = 0) := by push_neg; exact ⟨h1, h2⟩
  constructor
  · intro hz
    constructor
    · unfold stepFill
      dsimp only
      rw [if_neg hnz, if_pos (Or.inl hz)]
    · unfold openStep
      dsimp only
      rw [if_pos hz, if_neg h3]
  · intro hz
    have hno : ¬((ps f.coin).total_amount = 0 ∨
        ((ps f.coin).side = some "long" ∧ normSide f.side = "buy") ∨
        ((ps f.coin).side = some "short" ∧ normSide f.side = "sell")) := by
      rintro (ha | ⟨_, hb⟩ | ⟨_, hb⟩)
      · exact hz ha
      · exact h3 hb
      · exact h4 hb
    unfold stepFill
    dsimp only
    rw [if_neg hnz, if_neg hno]
    cases hc : closeStep f.coin (ps f.coin) f.px f.sz f.time |f.fee| with
    | error e => rfl
    | ok p => obtain ⟨p1, r1⟩ := p; rfl

/-- Witness for `c2_unrecognized_amended`: the single unrecognized fill
`fillUnrec` on a flat book. -/
theorem c2_unrecognized_amended_witness :
    stepFill initPS fillUnrec = .ok
      (updatePS initPS fillUnrec.coin
        (openStep (initPS fillUnrec.coin) (normSide fillUnrec.side)
          fillUnrec.px fillUnrec.sz fillUnrec.time), none) ∧
    (openStep (initPS fillUnrec.coin) (normSide fillUnrec.side)
      fillUnrec.px fillUnrec.sz fillUnrec.time).side = some "short" :=
  (c2_unrecognized_amended initPS fillUnrec (by with_unfolding_all decide)
    (by with_unfolding_all decide) (by with_unfolding_all decide)
    (by with_unfolding_all decide)).1 (by with_unfolding_all decide)

/-- C10: the degenerate-input filter discards exactly the fills with an
empty instrument or quantity equal to zero; a strictly-negative-quantity
fill is not discarded, and processing one drives `total_amount` below
zero. -/
theorem c10_degenerate_filter :
    (∀ (ps : PosMap) (f : Fill), (f.coin = "" ∨ f.sz = 0) →
      stepFill ps f = .ok (ps, none)) ∧
    (∀ (ps : PosMap) (f : Fill), f.coin ≠ "" → f.sz < 0 →
      stepFill ps f ≠ .ok (ps, none)) ∧
    (∃ p, finalPos [fillNeg] "A" = some p ∧ p.total_amount < 0) := by
  refine ⟨?_, ?_, ⟨[⟨1, 10, -1, "buy"⟩], some "long", -1, 0⟩,
    by with_unfolding_all decide, by with_unfolding_all decide⟩
  · intro ps f hf
    unfold stepFill
    dsimp only
    rw [if_pos hf]
  · intro ps f hcoin hneg h
    have hnz : ¬(f.coin = "" ∨ f.sz = 0) := by push_neg; exact ⟨hcoin, ne_of_lt hneg⟩
    unfold stepFill at h
    dsimp only at h
    rw [if_neg hnz] at h
    split at h
    · simp only [Except.ok.injEq, Prod.mk.injEq] at h
      have hcontr := congrArg (fun g : PosMap => (g f.coin).entries.length) h.1
      simp [updatePS, openStep] at hcontr
    · cases hc : closeStep f.coin (ps f.coin) f.px f.sz f.time |f.fee| with
      | error e => rw [hc] at h; simp at h
      | ok p => rw [hc] at h; obtain ⟨p1, r1⟩ := p; simp at h

/-- Witness for `c10_degenerate_filter`: an empty-instrument fill is
discarded; the negative-quantity fill `fillNeg` is not. -/
theorem c10_degenerate_filter_witness :
    stepFill initPS ⟨"", "buy", 1, 1, 1, 0⟩ = .ok (initPS, none) ∧
    stepFill initPS fillNeg ≠ .ok (initPS, none) :=
  ⟨c10_degenerate_filter.1 initPS ⟨"", "buy", 1, 1, 1, 0⟩ (Or.inl rfl),
   c10_degenerate_filter.2.1 initPS fillNeg (by with_unfolding_all decide)
     (by with_unfolding_all decide)⟩

/-! ### Writer lemmas and claims C7, C9 -/

/-- One unfolding of the Writer's per-trade loop. -/
theorem backfill_cons (fp : LedgerRow → Bool) (u : Int) (rate : ℚ)
    (store : List LedgerRow) (rt : RoundTrip) (rest : List RoundTrip) :
    backfill_trades fp u rate store (rt :: rest) =
      if dedupExists store u rt.symbol (toDbTime rt.entry_time) (toDbTime rt.exit_time)
      then backfill_trades fp u rate store rest
      else if fp (mkRow u rate rt)
      then backfill_trades fp u rate store rest
      else
        ((backfill_trades fp u rate (store ++ [mkRow u rate rt]) rest).1,
         (backfill_trades fp u rate (store ++ [mkRow u rate rt]) rest).2.1 + 1,
         (backfill_trades fp u rate (store ++ [mkRow u rate rt]) rest).2.2.1 + rt.pnl_usd,
         (backfill_trades fp u rate (store ++ [mkRow u rate rt]) rest).2.2.2 +
           (mkRow u rate rt).fee_usd) := rfl

/-- The row built for a trade carries its realized P&L unchanged. -/
theorem mkRow_profit (u : Int) (rate : ℚ) (rt : RoundTrip) :
    (mkRow u rate rt).profit_usd = rt.pnl_usd := rfl

/-- The Writer only appends: the final table is the initial one followed by
the newly inserted rows, and the three aggregates are the length, the
profit sum and the fee sum over exactly those new rows. -/
theorem backfill_append (fp : LedgerRow → Bool) (u : Int) (rate : ℚ)
    (rts : List RoundTrip) : ∀ store : List LedgerRow, ∃ app,
    backfill_trades fp u rate store rts =
      (store ++ app, app.length, (app.map (·.profit_usd)).sum,
        (app.map (·.fee_usd)).sum) := by
  induction rts with
  | nil => intro store; exact ⟨[], by simp [backfill_trades]⟩
  | cons rt rest ih =>
    intro store
    rw [backfill_cons]
    by_cases hd : dedupExists store u rt.symbol (toDbTime rt.entry_time)
        (toDbTime rt.exit_time) = true
    · rw [if_pos hd]; exact ih store
    · rw [if_neg hd]
      by_cases hf : fp (mkRow u rate rt) = true
      · rw [if_pos hf]; exact ih store
      · rw [if_neg hf]
        obtain ⟨app', happ⟩ := ih (store ++ [mkRow u rate rt])
        refine ⟨mkRow u rate rt :: app', ?_⟩
        rw [happ]
        simp [mkRow_profit, add_comm]

/-- A dedup hit survives any enlargement of the store. -/
theorem dedupExists_mono {store store2 : List LedgerRow} {u : Int} {sym : String}
    {et xt : ℚ} (h : dedupExists store u sym et xt = true)
    (hsub : ∀ r ∈ store, r ∈ store2) : dedupExists store2 u sym et xt = true := by
  simp only [dedupExists, List.any_eq_true, decide_eq_true_eq] at h ⊢
  obtain ⟨r, hr, hp⟩ := h
  exact ⟨r, hsub r hr, hp⟩

/-- A store containing the row the Writer builds for a trade produces a
dedup hit for that same trade (its times match exactly, hence within 60s). -/
theorem dedupExists_self {store2 : List LedgerRow} {u : Int} {rate : ℚ}
    {rt : RoundTrip} (h : mkRow u rate rt ∈ store2) :
    dedupExists store2 u rt.symbol (toDbTime rt.entry_time)
      (toDbTime rt.exit_time) = true := by
  simp only [dedupExists, List.any_eq_true, decide_eq_true_eq]
  refine ⟨mkRow u rate rt, h, rfl, rfl, ?_, ?_⟩
  · show |toDbTime rt.entry_time - toDbTime rt.entry_time| < 60
    simp
  · show |toDbTime rt.exit_time - toDbTime rt.exit_time| < 60
    simp

/-- If every row of the first run's final store is present in the store the
second run starts from, the second run inserts nothing. -/
theorem backfill_second_zero (u : Int) (rate : ℚ) (rts : List RoundTrip) :
    ∀ store store2 : List LedgerRow,
    (∀ r ∈ (backfill_trades (fun _ => false) u rate store rts).1, r ∈ store2) →
    (backfill_trades (fun _ => false) u rate store2 rts).2.1 = 0 := by
  induction rts with
  | nil => intro store store2 _; simp [backfill_trades]
  | cons rt rest ih =>
    intro store store2 hsub
    by_cases hd : dedupExists store u rt.symbol (toDbTime rt.entry_time)
        (toDbTime rt.exit_time) = true
    · have hsub0 : ∀ r ∈ store, r ∈ store2 := by
        intro r hr
        apply hsub
        obtain ⟨app, happ⟩ :=
          backfill_append (fun _ => false) u rate (rt :: rest) store
        rw [happ]
        exact List.mem_append_left _ hr
      have hd2 := dedupExists_mono hd hsub0
      rw [backfill_cons, if_pos hd2]
      rw [backfill_cons, if_pos hd] at hsub
      exact ih store store2 hsub
    · have hrow : mkRow u rate rt ∈ store2 := by
        apply hsub
        rw [backfill_cons, if_neg hd, if_neg (by simp)]
        obtain ⟨app, happ⟩ :=
          backfill_append (fun _ => false) u rate rest (store ++ [mkRow u rate rt])
        rw [happ]
        simp
      have hd2 := dedupExists_self hrow
      rw [backfill_cons, if_pos hd2]
      rw [backfill_cons, if_neg hd, if_neg (by simp)] at hsub
      exact ih (store ++ [mkRow u rate rt]) store2 hsub

/-- C7: the Writer is idempotent through its dedup check — running it a
second time, over the store produced by the first run, inserts zero rows. -/
theorem c7_writer_idempotent (u : Int) (rate : ℚ) (store : List LedgerRow)
    (rts : List RoundTrip) :
    (backfill_trades (fun _ => false) u rate
      (backfill_trades (fun _ => false) u rate store rts).1 rts).2.1 = 0 :=
  backfill_second_zero u rate rts store _ (fun _ hr => hr)

/-- C9: (1) the Writer's aggregates range over exactly the inserted rows —
the final store is the old one plus the appended rows, the insert count is
their number, and the P&L and fee totals are their sums; (2) a per-row
insertion failure skips that row and continues with the rest of the batch
unchanged. -/
theorem c9_writer_aggregates :
    (∀ (fp : LedgerRow → Bool) (u : Int) (rate : ℚ) (store : List LedgerRow)
        (rts : List RoundTrip), ∃ app,
      backfill_trades fp u rate store rts =
        (store ++ app, app.length, (app.map (·.profit_usd)).sum,
          (app.map (·.fee_usd)).sum)) ∧
    (∀ (fp : LedgerRow → Bool) (u : Int) (rate : ℚ) (store : List LedgerRow)
        (rt : RoundTrip) (rest : List RoundTrip),
      dedupExists store u rt.symbol (toDbTime rt.entry_time)
        (toDbTime rt.exit_time) = false →
      fp (mkRow u rate rt) = true →
      backfill_trades fp u rate store (rt :: rest) =
        backfill_trades fp u rate store rest) := by
  refine ⟨fun fp u rate store rts => backfill_append fp u rate rts store, ?_⟩
  intro fp u rate store rt rest hd hf
  rw [backfill_cons, hd, hf]
  simp

/-- Witness for `c9_writer_aggregates`: with an always-failing insert, the
one-trade batch behaves as the empty batch. -/
theorem c9_writer_aggregates_witness :
    dedupExists [] 7 rtSample.symbol (toDbTime rtSample.entry_time)
      (toDbTime rtSample.exit_time) = false ∧
    (fun _ : LedgerRow => true) (mkRow 7 (1/100) rtSample) = true ∧
    backfill_trades (fun _ => true) 7 (1/100) [] [rtSample] =
      backfill_trades (fun _ => true) 7 (1/100) [] [] :=
  ⟨by with_unfolding_all decide, rfl,
   c9_writer_aggregates.2 (fun _ => true) 7 (1/100) [] rtSample []
     (by with_unfolding_all decide) rfl⟩

/-! ### Claim C8: earliest entry timestamp -/

/-- Reading a coin other than the one just updated. -/
theorem updatePS_ne {c c0 : String} (ps : PosMap) (p : Pos) (h : c ≠ c0) :
    updatePS ps c0 p c = ps c := by
  simp [updatePS, h]

/-- `entriesLe` is monotone in the bound. -/
theorem entriesLe_mono {p : Pos} {b b' : ℚ} (h : entriesLe p b) (hb : b ≤ b') :
    entriesLe p b' :=
  fun e he => le_trans (h e he) hb

/-- The fresh position satisfies both invariants for any bound. -/
theorem freshPos_inv (b : ℚ) : entriesSorted freshPos ∧ entriesLe freshPos b := by
  constructor
  · simp [entriesSorted, freshPos]
  · intro e he; simp [freshPos] at he

/-- Opening preserves sortedness and bounds the entries by the fill time,
because the appended entry is stamped with the (latest) fill time. -/
theorem openStep_inv {p : Pos} {side : String} {price amount t b : ℚ}
    (hs : entriesSorted p) (hl : entriesLe p b) (hb : b ≤ t) :
    entriesSorted (openStep p side price amount t) ∧
    entriesLe (openStep p side price amount t) t := by
  constructor
  · unfold entriesSorted openStep
    dsimp only
    rw [List.map_append, List.pairwise_append]
    refine ⟨hs, by simp, ?_⟩
    intro x hx y hy
    simp only [List.map_cons, List.map_nil, List.mem_singleton] at hy
    subst hy
    obtain ⟨e, he, hex⟩ := List.mem_map.mp hx
    exact hex ▸ le_trans (hl e he) hb
  · unfold entriesLe openStep
    dsimp only
    intro e he
    rw [List.mem_append] at he
    rcases he with he | he
    · exact le_trans (hl e he) hb
    · simp only [List.mem_singleton] at he
      subst he
      exact le_refl _

/-- Closing preserves both invariants: the entries list is either unchanged
(partial close) or emptied (reset to flat). -/
theorem closeStep_entries_inv {coin : String} {p : Pos} {price amount t fee b : ℚ}
    {p' : Pos} {rt : RoundTrip}
    (h : closeStep coin p price amount t fee = .ok (p', rt))
    (hs : entriesSorted p) (hl : entriesLe p b) :
    entriesSorted p' ∧ entriesLe p' b := by
  obtain ⟨pct, hp, hrt, hpos⟩ := closeStep_inv h
  subst hpos
  by_cases hd : p.total_amount - min amount p.total_amount ≤ 0
  · rw [if_pos hd]; exact freshPos_inv b
  · rw [if_neg hd]; exact ⟨hs, hl⟩

/-- One matcher step preserves the invariant for every coin, raising the
bound to the fill's timestamp. -/
theorem stepFill_inv {ps : PosMap} {f : Fill} {ps' : PosMap} {ot : Option RoundTrip}
    {b : ℚ} (h : stepFill ps f = .ok (ps', ot))
    (hinv : ∀ c, entriesSorted (ps c) ∧ entriesLe (ps c) b) (hb : b ≤ f.time) :
    ∀ c, entriesSorted (ps' c) ∧ entriesLe (ps' c) f.time := by
  unfold stepFill at h
  dsimp only at h
  split at h
  · simp only [Except.ok.injEq, Prod.mk.injEq] at h
    obtain ⟨h1, _⟩ := h
    subst h1
    exact fun c => ⟨(hinv c).1, entriesLe_mono (hinv c).2 hb⟩
  · split at h
    · simp only [Except.ok.injEq, Prod.mk.injEq] at h
      obtain ⟨h1, _⟩ := h
      subst h1
      intro c
      by_cases hc : c = f.coin
      · subst hc
        rw [updatePS_same]
        exact openStep_inv (hinv f.coin).1 (hinv f.coin).2 hb
      · rw [updatePS_ne _ _ hc]
        exact ⟨(hinv c).1, entriesLe_mono (hinv c).2 hb⟩
    · cases hcs : closeStep f.coin (ps f.coin) f.px f.sz f.time |f.fee| with
      | error e => rw [hcs] at h; simp at h
      | ok q =>
        obtain ⟨p1, r1⟩ := q
        rw [hcs] at h
        simp only [Except.ok.injEq, Prod.mk.injEq] at h
        obtain ⟨h1, _⟩ := h
        subst h1
        intro c
        by_cases hc : c = f.coin
        · subst hc
          rw [updatePS_same]
          exact closeStep_entries_inv hcs (hinv f.coin).1
            (entriesLe_mono (hinv f.coin).2 hb)
        · rw [updatePS_ne _ _ hc]
          exact ⟨(hinv c).1, entriesLe_mono (hinv c).2 hb⟩

/-- Inversion of one loop iteration inside a successful run. -/
theorem runFills_cons_inv {ps : PosMap} {f : Fill} {rest : List Fill}
    {ps' : PosMap} {ts : List RoundTrip}
    (h : runFills ps (f :: rest) = .ok (ps', ts)) :
    ∃ ps1 ot ts1, stepFill ps f = .ok (ps1, ot) ∧
      runFills ps1 rest = .ok (ps', ts1) ∧ ts = ot.toList ++ ts1 := by
  unfold runFills at h
  cases hs : stepFill ps f with
  | error e => rw [hs] at h; simp at h
  | ok p =>
    obtain ⟨ps1, ot⟩ := p
    rw [hs] at h
    dsimp only at h
    cases hr : runFills ps1 rest with
    | error e => rw [hr] at h; simp at h
    | ok q =>
      obtain ⟨ps2, ts1⟩ := q
      rw [hr] at h
      simp only [Except.ok.injEq, Prod.mk.injEq] at h
      exact ⟨ps1, ot, ts1, rfl, h.1 ▸ hr, h.2.symm⟩

/-- A successful run over a timestamp-sorted fill list, started from an
invariant-satisfying state whose bound is below every fill, ends with every
coin's entries sorted. -/
theorem runFills_inv (fills : List Fill) :
    ∀ (ps : PosMap) (b : ℚ) (ps' : PosMap) (ts : List RoundTrip),
    (∀ c, entriesSorted (ps c) ∧ entriesLe (ps c) b) →
    (∀ g ∈ fills, b ≤ g.time) →
    List.Pairwise (fun a g : Fill => a.time ≤ g.time) fills →
    runFills ps fills = .ok (ps', ts) →
    ∀ c, entriesSorted (ps' c) := by
  induction fills with
  | nil =>
    intro ps b ps' ts hinv _ _ h
    unfold runFills at h
    simp only [Except.ok.injEq, Prod.mk.injEq] at h
    exact h.1 ▸ fun c => (hinv c).1
  | cons f rest ih =>
    intro ps b ps' ts hinv hb hpair h
    obtain ⟨ps1, ot, ts1, hs, hr, _⟩ := runFills_cons_inv h
    have hinv1 := stepFill_inv hs hinv (hb f (List.mem_cons_self f rest))
    refine ih ps1 f.time ps' ts1 hinv1 ?_ hpair.of_cons hr
    intro g hg
    exact List.rel_of_pairwise_cons hpair hg

/-- C8: over a timestamp-sorted fill stream, the entries recorded for any
position since it was last flat have nondecreasing timestamps, and any
round trip the closing branch emits from such a position carries as
`entry_time` the earliest of those timestamps (the head of `entries`), or
the closing fill's own timestamp when no entry is recorded. -/
theorem c8_entry_time_earliest (fills : List Fill) (c : String) (pos : Pos)
    (hpair : List.Pairwise (fun a g : Fill => a.time ≤ g.time) fills)
    (hfp : finalPos fills c = some pos) :
    entriesSorted pos ∧
    ∀ (price amount ts fee : ℚ) (pos' : Pos) (rt : RoundTrip),
      closeStep c pos price amount ts fee = .ok (pos', rt) →
      (pos.entries = [] → rt.entry_time = ts) ∧
      (pos.entries ≠ [] →
        rt.entry_time ∈ pos.entries.map (·.timestamp) ∧
        ∀ t ∈ pos.entries.map (·.timestamp), rt.entry_time ≤ t) := by
  unfold finalPos at hfp
  cases hr : runFills initPS fills with
  | error e => rw [hr] at hfp; simp at hfp
  | ok p =>
    obtain ⟨ps, ts0⟩ := p
    rw [hr] at hfp
    simp only [Option.some.injEq] at hfp
    have hsorted : entriesSorted pos := by
      rw [← hfp]
      cases fills with
      | nil =>
        exact runFills_inv [] initPS 0 ps ts0
          (fun _ => freshPos_inv 0) (by simp) (by simp) hr c
      | cons f rest =>
        refine runFills_inv (f :: rest) initPS f.time ps ts0
          (fun _ => freshPos_inv f.time) ?_ hpair hr c
        intro g hg
        rcases List.mem_cons.mp hg with hg | hg
        · exact hg ▸ le_refl _
        · exact List.rel_of_pairwise_cons hpair hg
    refine ⟨hsorted, ?_⟩
    intro price amount ts fee pos' rt hcs
    obtain ⟨pct, hp, hrt, hpos⟩ := closeStep_inv hcs
    subst hrt
    constructor
    · intro he
      dsimp only
      rw [he]
    · intro hne
      cases hE : pos.entries with
      | nil => exact absurd hE hne
      | cons e es =>
        dsimp only
        unfold entriesSorted at hsorted
        rw [hE, List.map_cons] at hsorted
        constructor
        · simp
        · intro t ht
          simp only [List.map_cons, List.mem_cons] at ht
          rcases ht with ht | ht
          · exact ht ▸ le_refl _
          · exact List.rel_of_pairwise_cons hsorted ht

/-- Witness for `c8_entry_time_earliest`: after two accumulating fills the
close at time 5 carries `entry_time = 1`, the earliest entry timestamp. -/
theorem c8_entry_time_earliest_witness :
    List.Pairwise (fun a g : Fill => a.time ≤ g.time) [fillAvg1, fillAvg2] ∧
    finalPos [fillAvg1, fillAvg2] "A" = some posAvg ∧
    closeStep "A" posAvg 120 3 5 0 = .ok (freshPos, rtAvg) ∧
    rtAvg.entry_time ∈ posAvg.entries.map (·.timestamp) ∧
    ∀ t ∈ posAvg.entries.map (·.timestamp), rtAvg.entry_time ≤ t := by
  have hcs : closeStep "A" posAvg 120 3 5 0 = .ok (freshPos, rtAvg) := by
    with_unfolding_all rfl
  refine ⟨by with_unfolding_all decide, by with_unfolding_all decide, hcs, ?_⟩
  exact ((c8_entry_time_earliest [fillAvg1, fillAvg2] "A" posAvg
    (by with_unfolding_all decide) (by with_unfolding_all decide)).2
      120 3 5 0 freshPos rtAvg hcs).2 (by with_unfolding_all decide)
